import Mathlib

/-!
Shallow embedding of `cvxpy/atoms/elementwise/power.py` (elementwise power
atom): exponent sanitization, bounded-denominator rational approximation,
regime classification, curvature/monotonicity derivation, and
canonicalization wiring, together with proofs of the specified properties.

Python `Fraction` values are embedded as Lean `ℚ`; a Python function that can
raise an uncaught exception (`ZeroDivisionError`) is embedded as an
`Option`-valued function returning `none` exactly on the raising inputs.
-/

namespace CvxpyPower

/-- Loop of CPython's `Fraction.limit_denominator` (continued-fraction
convergent search).  State `(p0, q0, p1, q1)` holds the previous and current
convergent; `n / d` is the remaining tail of the fraction being expanded.
The Python `while True` loop terminates because `d` strictly decreases, so a
fuel of `d + 1` at the top call is enough to never run out; the fuel-0 arm is
unreachable from `limit_denominator`. -/
def cfLoop (maxD : ℤ) : ℕ → ℤ → ℕ → ℤ → ℤ → ℤ → ℤ → ℤ × ℤ × ℤ × ℤ
  | 0, _, _, p0, q0, p1, q1 => (p0, q0, p1, q1)
  | fuel+1, n, d, p0, q0, p1, q1 =>
    if d = 0 then (p0, q0, p1, q1)
    else if maxD < q0 + (n / (d : ℤ)) * q1 then (p0, q0, p1, q1)
    else cfLoop maxD fuel (d : ℤ) ((n % (d : ℤ)).toNat)
      p1 q1 (p0 + (n / (d : ℤ)) * p1) (q0 + (n / (d : ℤ)) * q1)

/-- Final candidate selection of CPython's `Fraction.limit_denominator`:
from the last two convergents, form the semiconvergent `bound1` and the last
convergent `bound2`, and return whichever is closest to `x` (ties to
`bound2`). -/
def ldFinish (maxD : ℤ) (x : ℚ) : ℤ × ℤ × ℤ × ℤ → ℚ
  | (p0, q0, p1, q1) =>
    let k : ℤ := (maxD - q0) / q1
    let bound1 : ℚ := ((p0 + k * p1 : ℤ) : ℚ) / ((q0 + k * q1 : ℤ) : ℚ)
    let bound2 : ℚ := ((p1 : ℤ) : ℚ) / ((q1 : ℤ) : ℚ)
    if |bound2 - x| ≤ |bound1 - x| then bound2 else bound1

/-- Embedding of CPython's `Fraction.limit_denominator(max_denominator)`:
the closest fraction to `x` with denominator at most `maxD`, found by the
standard continued-fraction convergent search.  If `x` already has a small
enough denominator it is returned unchanged. -/
def limit_denominator (x : ℚ) (maxD : ℕ) : ℚ :=
  if x.den ≤ maxD then x
  else ldFinish (maxD : ℤ) x (cfLoop (maxD : ℤ) (x.den + 1) x.num x.den 0 1 1 0)

/-- Default `max_denom` argument of `pow_high`, `pow_mid`, `pow_neg`. -/
def max_denom : ℕ := 1024

/-- Modelled from the spec: `cvxpy.utilities.power_tools.sanitize_scalar` is
not under `src/`; §4.1 of the spec states that integral and floating inputs
are converted to the exact rational they represent and exact-rational inputs
pass through unchanged, so on the exact-rational domain the sanitizer is the
identity. -/
def sanitize_scalar (p : ℚ) : ℚ := p

/-- Embedding of `pow_high(p, max_denom=1024)`: approximate `1/p` by a
bounded-denominator rational `q` and return `(1/q, (q, 1-q))`.  When `q = 0`
the Python code computes `1/q` on a zero `Fraction` and raises an uncaught
`ZeroDivisionError`, embedded here as `none`.  (The Python branch returning
`int(1/p)` instead of `Fraction(1/p)` produces the same rational value, so
both branches collapse to one here.) -/
def pow_high (p : ℚ) : Option (ℚ × (ℚ × ℚ)) :=
  let q := limit_denominator p⁻¹ max_denom
  if q = 0 then none else some (q⁻¹, (q, 1 - q))

/-- Embedding of `pow_mid(p, max_denom=1024)`: approximate `p` itself and
return `(q, (q, 1-q))`. -/
def pow_mid (p : ℚ) : ℚ × (ℚ × ℚ) :=
  let q := limit_denominator p max_denom
  (q, (q, 1 - q))

/-- Embedding of `pow_neg(p, max_denom=1024)`: approximate `p/(p-1)` by `q`
and return `(q/(q-1), (q, 1-q))`.  When `q = 1` the Python code divides the
`Fraction` `q` by zero and raises an uncaught `ZeroDivisionError`, embedded
here as `none`. -/
def pow_neg (p : ℚ) : Option (ℚ × (ℚ × ℚ)) :=
  let q := limit_denominator (p / (p - 1)) max_denom
  if q = 1 then none else some (q / (q - 1), (q, 1 - q))

/-- The data stored on a constructed `power` atom: the approximated exponent
`self.p` and the optional weight pair `self.w`. -/
structure PowerAtom where
  p : ℚ
  w : Option (ℚ × ℚ)
deriving DecidableEq

/-- Regime dispatch of `power.__init__`: `p > 1` uses `pow_high`,
`0 < p < 1` uses `pow_mid`, `p < 0` uses `pow_neg`; for `p ∈ {0, 1}` no
branch fires and `w` is only assigned by the subsequent collapse (modelled
here as `none`, the value the collapse always gives it on this path). -/
def power_step (p : ℚ) : Option (ℚ × Option (ℚ × ℚ)) :=
  if 1 < p then (pow_high p).map (fun z => (z.1, some z.2))
  else if 0 < p ∧ p < 1 then some ((pow_mid p).1, some (pow_mid p).2)
  else if p < 0 then (pow_neg p).map (fun z => (z.1, some z.2))
  else some (p, none)

/-- Boundary collapse of `power.__init__`: if the approximated exponent came
out exactly 1, reset to `(1, None)`; then if it is exactly 0, reset to
`(0, None)`. -/
def power_collapse : ℚ × Option (ℚ × ℚ) → ℚ × Option (ℚ × ℚ)
  | (p, w) =>
    let s := if p = 1 then ((1 : ℚ), (none : Option (ℚ × ℚ))) else (p, w)
    if s.1 = 0 then ((0 : ℚ), none) else s

/-- Embedding of `power.__init__(x, p)` restricted to the exponent data it
computes: sanitize, dispatch to the regime approximator, collapse boundary
values.  `none` models an uncaught `ZeroDivisionError` escaping the
constructor. -/
def power_init (p0 : ℚ) : Option PowerAtom :=
  (power_step (sanitize_scalar p0)).map
    (fun z => { p := (power_collapse z).1, w := (power_collapse z).2 })

/-- Curvature values used by `power.func_curvature`. -/
inductive Curvature where
  | constant
  | affine
  | convex
  | concave
deriving DecidableEq

/-- Embedding of `power.func_curvature`, a pure function of `self.p`; the
`none` arm corresponds to the implicit `return None` when no branch fires
(unreachable for rational `p`). -/
def func_curvature (p : ℚ) : Option Curvature :=
  if p = 0 then some Curvature.constant
  else if p = 1 then some Curvature.affine
  else if p < 0 ∨ 1 < p then some Curvature.convex
  else if 0 < p ∧ p < 1 then some Curvature.concave
  else none

/-- Monotonicity values used by `power.monotonicity`. -/
inductive Monotonicity where
  | nonmonotonic
  | increasing
  | decreasing
  | signed
deriving DecidableEq

/-- Modelled from the spec: `cvxpy.utilities.power_tools.is_power2` is not
under `src/`; §4.3 of the spec states the detector checks whether the
exponent is a positive integer that is itself a power of two, which for a
reduced rational means denominator 1 and a positive numerator with a single
set bit. -/
def is_power2 (p : ℚ) : Bool :=
  p.den == 1 && p.num.toNat != 0 && (p.num.toNat &&& (p.num.toNat - 1)) == 0

/-- The bit trick `n &&& (n-1) = 0` detects exactly the powers of two among
the nonzero naturals. -/
lemma land_pred_eq_zero_iff_pow2 :
    ∀ n : ℕ, n ≠ 0 → ((n &&& (n - 1) = 0) ↔ ∃ k, n = 2 ^ k) := by
  intro n
  induction n using Nat.strong_induction_on with
  | _ n ih =>
    intro hn
    constructor
    · intro h
      rcases Nat.even_or_odd n with he | ho
      · obtain ⟨m, hm⟩ := he
        have hm2 : n = 2 * m := by omega
        have hmne : m ≠ 0 := by omega
        have hsub : n - 1 = 2 * (m - 1) + 1 := by omega
        have e1 : n &&& (n - 1) = 2 * (m &&& (m - 1)) := by
          rw [hsub, hm2]
          simpa [Nat.bit, Bool.false_and] using Nat.land_bit false m true (m - 1)
        have e2 : m &&& (m - 1) = 0 := by omega
        obtain ⟨k, hk⟩ := (ih m (by omega) hmne).mp e2
        exact ⟨k + 1, by rw [hm2, hk]; ring⟩
      · obtain ⟨m, hm⟩ := ho
        rcases Nat.eq_zero_or_pos m with rfl | hmpos
        · exact ⟨0, by omega⟩
        · exfalso
          have hsub : n - 1 = 2 * m := by omega
          have hm1 : n = 2 * m + 1 := by omega
          have e1 : n &&& (n - 1) = 2 * (m &&& m) := by
            rw [hsub, hm1]
            simpa [Nat.bit, Bool.and_false] using Nat.land_bit true m false m
          rw [Nat.and_self] at e1
          omega
    · rintro ⟨k, rfl⟩
      rw [Nat.and_pow_two_sub_one_eq_mod, Nat.mod_self]

/-- Embedding of `power.monotonicity`, a pure function of `self.p`; the
`none` arm corresponds to the implicit `return None` when no branch fires
(unreachable for rational `p`). -/
def monotonicity (p : ℚ) : Option Monotonicity :=
  if p = 0 then some Monotonicity.nonmonotonic
  else if p = 1 then some Monotonicity.increasing
  else if p < 0 then some Monotonicity.decreasing
  else if 0 < p ∧ p < 1 then some Monotonicity.increasing
  else if 1 < p then
    some (if is_power2 p then Monotonicity.signed else Monotonicity.increasing)
  else none

/-- Operands appearing in `power.graph_implementation`: the lowered argument
`x`, the all-ones constant `one` of the target shape, and the fresh epigraph
variable `t`. -/
inductive Operand where
  | x
  | one
  | t
deriving DecidableEq

/-- Record of a call to the external geometric-mean constraint constructor
`gm_constrs(epi, [base1, base2], w)`, which `power.graph_implementation`
consumes as an opaque service. -/
structure GmCall where
  epi : Operand
  base1 : Operand
  base2 : Operand
  w : Option (ℚ × ℚ)
deriving DecidableEq

/-- Embedding of `power.graph_implementation`: returns the replacement
operand together with the `gm_constrs` call made (if any); the `none` arm
models the `NotImplementedError` raise (unreachable for rational `p`). -/
def graph_implementation (p : ℚ) (w : Option (ℚ × ℚ)) :
    Option (Operand × Option GmCall) :=
  if p = 1 then some (Operand.x, none)
  else if p = 0 then some (Operand.one, none)
  else if 0 < p ∧ p < 1 then
    some (Operand.t, some ⟨Operand.t, Operand.x, Operand.one, w⟩)
  else if 1 < p then
    some (Operand.t, some ⟨Operand.x, Operand.t, Operand.one, w⟩)
  else if p < 0 then
    some (Operand.t, some ⟨Operand.one, Operand.x, Operand.t, w⟩)
  else none

/-- The five exponent regimes of the spec's data model, determined by exact
comparison of the (approximated) exponent against 0 and 1. -/
inductive Regime where
  | zero
  | one
  | openUnitInterval
  | greaterThanOne
  | negative
deriving DecidableEq

/-- Regime classification of an exponent, per the spec's data model. -/
def regime (p : ℚ) : Regime :=
  if p = 0 then Regime.zero
  else if p = 1 then Regime.one
  else if 1 < p then Regime.greaterThanOne
  else if 0 < p then Regime.openUnitInterval
  else Regime.negative

/-! ### Bounds on the continued-fraction search -/

/-- Bounds maintained by the `cfLoop` state `(p0, q0, p1, q1)` once the loop
is past its first two iterations: both stored convergents lie in `[0, 1]`
and their denominators lie in `[1, maxD]`. -/
def StBounds (maxD : ℤ) (s : ℤ × ℤ × ℤ × ℤ) : Prop :=
  0 ≤ s.1 ∧ s.1 ≤ s.2.1 ∧ 0 ≤ s.2.2.1 ∧ s.2.2.1 ≤ s.2.2.2 ∧
    1 ≤ s.2.1 ∧ 1 ≤ s.2.2.2 ∧ s.2.1 ≤ maxD ∧ s.2.2.2 ≤ maxD

/-- The loop preserves `StBounds`: every exit state (fuel exhaustion, `d = 0`,
or the denominator-overflow break) still satisfies the bounds. -/
lemma cfLoop_inv (maxD : ℤ) :
    ∀ (fuel : ℕ) (n : ℤ) (d : ℕ) (p0 q0 p1 q1 : ℤ), 0 ≤ n →
      StBounds maxD (p0, q0, p1, q1) →
      StBounds maxD (cfLoop maxD fuel n d p0 q0 p1 q1) := by
  intro fuel
  induction fuel with
  | zero =>
    intro n d p0 q0 p1 q1 _ h
    simpa [cfLoop] using h
  | succ f ih =>
    intro n d p0 q0 p1 q1 hn h
    rw [cfLoop]
    split
    · exact h
    · split
      · exact h
      · rename_i hd hq2
        obtain ⟨h1, h2, h3, h4, h5, h6, h7, h8⟩ := h
        have hdpos : (0 : ℤ) < (d : ℤ) := by exact_mod_cast Nat.pos_of_ne_zero hd
        have ha : 0 ≤ n / (d : ℤ) := Int.ediv_nonneg hn (le_of_lt hdpos)
        apply ih
        · positivity
        · refine ⟨h3, h4, ?_, ?_, h6, ?_, h8, ?_⟩
          · have := mul_nonneg ha h3
            simp only at *
            linarith
          · have := mul_le_mul_of_nonneg_left h4 ha
            simp only at *
            linarith
          · have := mul_nonneg ha (by linarith : (0 : ℤ) ≤ q1)
            simp only at *
            linarith
          · simp only at *
            linarith [not_lt.mp hq2]

/-- The denominator of an integer quotient of rationals is bounded by the
(positive) integer denominator. -/
lemma den_div_int_le (a b : ℤ) (hb : 0 < b) :
    (((a : ℚ) / (b : ℚ)).den : ℤ) ≤ b := by
  have h : ((Rat.divInt a b).den : ℤ) ∣ b := Rat.den_dvd a b
  rw [Rat.divInt_eq_div] at h
  exact Int.le_of_dvd hb h

/-- Candidate selection returns a value in `[0, 1]` with denominator at most
`maxD`, for every state reachable at loop exit: either `StBounds` holds or
the state is the early-break state `(1, 0, 0, 1)`. -/
lemma ldFinish_bounds (maxD : ℤ) (hmax : 1 ≤ maxD) (x : ℚ) (s : ℤ × ℤ × ℤ × ℤ)
    (hs : StBounds maxD s ∨ s = (1, 0, 0, 1)) :
    0 ≤ ldFinish maxD x s ∧ ldFinish maxD x s ≤ 1 ∧
      ((ldFinish maxD x s).den : ℤ) ≤ maxD := by
  obtain ⟨p0, q0, p1, q1⟩ := s
  have hfacts : 1 ≤ q1 ∧ 0 ≤ q0 ∧ 0 ≤ p1 ∧ p1 ≤ q1 ∧
      0 ≤ p0 + ((maxD - q0) / q1) * p1 ∧
      p0 + ((maxD - q0) / q1) * p1 ≤ q0 + ((maxD - q0) / q1) * q1 ∧
      1 ≤ q0 + ((maxD - q0) / q1) * q1 ∧
      q0 + ((maxD - q0) / q1) * q1 ≤ maxD := by
    have hmul : ∀ c : ℤ, 1 ≤ c → c ≤ maxD →
        ((maxD - c) / c) * c ≤ maxD - c ∧ 0 ≤ (maxD - c) / c := by
      intro c hc1 hcm
      have hc0 : c ≠ 0 := by linarith
      have e1 := Int.ediv_add_emod (maxD - c) c
      have e2 := Int.emod_nonneg (maxD - c) hc0
      constructor
      · nlinarith [e1, e2]
      · exact Int.ediv_nonneg (by linarith) (by linarith)
    rcases hs with h | h
    · obtain ⟨h1, h2, h3, h4, h5, h6, h7, h8⟩ := h
      simp only at h1 h2 h3 h4 h5 h6 h7 h8
      have hq1 : q1 ≠ 0 := by linarith
      have e1 := Int.ediv_add_emod (maxD - q0) q1
      have e2 := Int.emod_nonneg (maxD - q0) hq1
      have hk : 0 ≤ (maxD - q0) / q1 := Int.ediv_nonneg (by linarith) (by linarith)
      refine ⟨h6, by linarith, h3, h4, by nlinarith, ?_, by nlinarith, by nlinarith⟩
      · nlinarith [mul_le_mul_of_nonneg_left h4 hk]
    · have h' : p0 = 1 ∧ q0 = 0 ∧ p1 = 0 ∧ q1 = 1 := by
        simpa [Prod.ext_iff] using h
      obtain ⟨rfl, rfl, rfl, rfl⟩ := h'
      simp only [sub_zero, Int.ediv_one, mul_zero, mul_one, add_zero, zero_add]
      exact ⟨le_refl 1, le_refl 0, le_refl 0, zero_le_one, zero_le_one, hmax, hmax,
        le_refl maxD⟩
  obtain ⟨hq1, hq0, hp1, hp1q, hA, hAB, hB1, hBm⟩ := hfacts
  set k : ℤ := (maxD - q0) / q1 with hk
  set A : ℤ := p0 + k * p1 with hAdef
  set B : ℤ := q0 + k * q1 with hBdef
  have hb2_nonneg : (0 : ℚ) ≤ (p1 : ℚ) / (q1 : ℚ) := by
    apply div_nonneg
    · exact_mod_cast hp1
    · exact_mod_cast (by linarith : (0 : ℤ) ≤ q1)
  have hb2_le_one : (p1 : ℚ) / (q1 : ℚ) ≤ 1 := by
    rw [div_le_one (by exact_mod_cast lt_of_lt_of_le zero_lt_one hq1)]
    exact_mod_cast hp1q
  have hb2_den : (((p1 : ℚ) / (q1 : ℚ)).den : ℤ) ≤ maxD := by
    calc (((p1 : ℚ) / (q1 : ℚ)).den : ℤ) ≤ q1 := den_div_int_le p1 q1 (by linarith)
    _ ≤ maxD := by
        rcases hs with h | h
        · exact h.2.2.2.2.2.2.2
        · have h' : p0 = 1 ∧ q0 = 0 ∧ p1 = 0 ∧ q1 = 1 := by
            simpa [Prod.ext_iff] using h
          omega
  have hb1_nonneg : (0 : ℚ) ≤ (A : ℚ) / (B : ℚ) := by
    apply div_nonneg
    · exact_mod_cast hA
    · exact_mod_cast (by linarith : (0 : ℤ) ≤ B)
  have hb1_le_one : (A : ℚ) / (B : ℚ) ≤ 1 := by
    rw [div_le_one (by exact_mod_cast lt_of_lt_of_le zero_lt_one hB1)]
    exact_mod_cast hAB
  have hb1_den : (((A : ℚ) / (B : ℚ)).den : ℤ) ≤ maxD := by
    calc (((A : ℚ) / (B : ℚ)).den : ℤ) ≤ B := den_div_int_le A B (by linarith)
    _ ≤ maxD := hBm
  simp only [ldFinish]
  split
  · exact ⟨hb2_nonneg, hb2_le_one, hb2_den⟩
  · exact ⟨hb1_nonneg, hb1_le_one, hb1_den⟩

/-- Range and denominator bound for the bounded-denominator approximation of
a rational in the open unit interval: the result stays in `[0, 1]` and its
denominator is at most `maxD`.  (All three regime approximators call
`limit_denominator` on a value in `(0, 1)`.) -/
lemma limit_denominator_bounds (x : ℚ) (maxD : ℕ) (hmax : 1 ≤ maxD)
    (hx0 : 0 < x) (hx1 : x < 1) :
    0 ≤ limit_denominator x maxD ∧ limit_denominator x maxD ≤ 1 ∧
      (limit_denominator x maxD).den ≤ maxD := by
  rw [limit_denominator]
  split
  · exact ⟨le_of_lt hx0, le_of_lt hx1, by assumption⟩
  · rename_i hden
    have hN : 0 < x.num := Rat.num_pos.mpr hx0
    have hND : x.num < (x.den : ℤ) := Rat.lt_one_iff_num_lt_denom.mp hx1
    have hDm : (maxD : ℤ) < (x.den : ℤ) := by exact_mod_cast Nat.lt_of_not_le hden
    have hmaxZ : (1 : ℤ) ≤ (maxD : ℤ) := by exact_mod_cast hmax
    have hdne : x.den ≠ 0 := Nat.pos_iff_ne_zero.mp x.pos
    -- first iteration: `a = 0`, state goes from `(0,1,1,0)` to `(1,0,0,1)`
    have ha1 : x.num / (x.den : ℤ) = 0 := Int.ediv_eq_zero_of_lt (le_of_lt hN) hND
    have hm1 : (x.num % (x.den : ℤ)).toNat = x.num.toNat := by
      rw [Int.emod_eq_of_lt (le_of_lt hN) hND]
    have step1 : cfLoop (maxD : ℤ) (x.den + 1) x.num x.den 0 1 1 0 =
        cfLoop (maxD : ℤ) x.den (x.den : ℤ) x.num.toNat 1 0 0 1 := by
      rw [cfLoop, if_neg hdne, ha1, hm1]
      rw [if_neg (by omega : ¬ ((maxD : ℤ) < 1 + 0 * 0))]
      norm_num
    rw [step1]
    -- second iteration: `a = den / num`, state `(1,0,0,1)` to `(0,1,1,a)`
    obtain ⟨D', hD'⟩ : ∃ D', x.den = D' + 1 := ⟨x.den - 1, by omega⟩
    have hnum_toNat : (x.num.toNat : ℤ) = x.num := Int.toNat_of_nonneg (le_of_lt hN)
    have hnumne : x.num.toNat ≠ 0 := by omega
    rw [hD', cfLoop, if_neg hnumne]
    simp only [mul_zero, add_zero, mul_one, zero_add]
    set a2 : ℤ := ((D' + 1 : ℕ) : ℤ) / (x.num.toNat : ℤ) with ha2def
    have ha2' : 1 ≤ a2 := by
      rw [ha2def, Int.le_ediv_iff_mul_le (by omega : (0 : ℤ) < (x.num.toNat : ℤ))]
      omega
    split
    · rename_i hbrk
      have hres := ldFinish_bounds (maxD : ℤ) hmaxZ x (1, 0, 0, 1) (Or.inr rfl)
      exact ⟨hres.1, hres.2.1, by exact_mod_cast hres.2.2⟩
    · rename_i hbrk
      have hst : StBounds (maxD : ℤ) (0, 1, 1, a2) := by
        refine ⟨le_refl 0, zero_le_one, zero_le_one, ha2', le_refl 1, ha2', hmaxZ, ?_⟩
        exact not_lt.mp hbrk
      have hinv := cfLoop_inv (maxD : ℤ) D' (x.num.toNat : ℤ)
        ((((D' + 1 : ℕ) : ℤ) % (x.num.toNat : ℤ)).toNat) 0 1 1 a2 (by positivity) hst
      have hres := ldFinish_bounds (maxD : ℤ) hmaxZ x _ (Or.inl hinv)
      exact ⟨hres.1, hres.2.1, by exact_mod_cast hres.2.2⟩

/-- A rational whose denominator is already within the bound is returned
unchanged by `limit_denominator`. -/
lemma limit_denominator_of_den_le {x : ℚ} {maxD : ℕ} (h : x.den ≤ maxD) :
    limit_denominator x maxD = x := by
  rw [limit_denominator, if_pos h]

/-! ### Branch lemmas for the constructor -/

lemma power_step_high {p : ℚ} (h : 1 < p) :
    power_step p = (pow_high p).map (fun z => (z.1, some z.2)) := by
  rw [power_step, if_pos h]

lemma power_step_mid {p : ℚ} (h0 : 0 < p) (h1 : p < 1) :
    power_step p = some ((pow_mid p).1, some (pow_mid p).2) := by
  rw [power_step, if_neg (by linarith), if_pos ⟨h0, h1⟩]

lemma power_step_neg {p : ℚ} (h : p < 0) :
    power_step p = (pow_neg p).map (fun z => (z.1, some z.2)) := by
  rw [power_step, if_neg (by linarith), if_neg (by rintro ⟨h0, _⟩; linarith),
    if_pos h]

lemma power_step_zero : power_step 0 = some (0, none) := by
  rw [power_step]
  norm_num

lemma power_step_one : power_step 1 = some (1, none) := by
  rw [power_step]
  norm_num

lemma power_collapse_of_ne {p : ℚ} (w : Option (ℚ × ℚ)) (h1 : p ≠ 1)
    (h0 : p ≠ 0) : power_collapse (p, w) = (p, w) := by
  simp [power_collapse, h0, h1]

lemma power_collapse_one (w : Option (ℚ × ℚ)) :
    power_collapse (1, w) = (1, none) := by
  simp [power_collapse]

lemma power_collapse_zero (w : Option (ℚ × ℚ)) :
    power_collapse (0, w) = (0, none) := by
  simp [power_collapse]

lemma power_init_some {p0 : ℚ} {a : PowerAtom} (h : power_init p0 = some a) :
    ∃ z, power_step p0 = some z ∧
      a = ⟨(power_collapse z).1, (power_collapse z).2⟩ := by
  rw [power_init, sanitize_scalar] at h
  obtain ⟨z, hz, hza⟩ := Option.map_eq_some'.mp h
  exact ⟨z, hz, hza.symm⟩

/-- Sound characterization of a successful `pow_high` call on `p > 1`: the
approximant `q` of `1/p` is in `(0, 1]` with denominator at most 1024, the
returned exponent is `1/q ≥ 1` and the weights are `(q, 1-q)`. -/
lemma pow_high_sound {p : ℚ} (hp : 1 < p) {pp : ℚ} {w : ℚ × ℚ}
    (h : pow_high p = some (pp, w)) :
    ∃ q : ℚ, q = limit_denominator p⁻¹ max_denom ∧ 0 < q ∧ q ≤ 1 ∧
      q.den ≤ 1024 ∧ pp = q⁻¹ ∧ w = (q, 1 - q) ∧ 1 ≤ pp := by
  rw [pow_high] at h
  set q := limit_denominator p⁻¹ max_denom with hq
  have hx0 : 0 < p⁻¹ := inv_pos.mpr (by linarith)
  have hx1 : p⁻¹ < 1 := inv_lt_one_of_one_lt₀ hp
  have hb := limit_denominator_bounds p⁻¹ max_denom (by norm_num [max_denom]) hx0 hx1
  rw [← hq] at hb
  by_cases h0 : q = 0
  · rw [if_pos h0] at h
    exact absurd h (by simp)
  · rw [if_neg h0] at h
    have hqpos : 0 < q := lt_of_le_of_ne hb.1 (Ne.symm h0)
    have hinv : 1 ≤ q⁻¹ := one_le_inv_iff₀.mpr ⟨hqpos, hb.2.1⟩
    obtain ⟨h1, h2⟩ := Prod.mk.injEq .. ▸ Option.some.injEq .. ▸ h
    exact ⟨q, rfl, hqpos, hb.2.1, by simpa [max_denom] using hb.2.2, h1.symm,
      h2.symm, h1 ▸ hinv⟩

/-- Sound characterization of a successful `pow_neg` call on `p < 0`: the
approximant `q` of `p/(p-1)` is in `[0, 1)` with denominator at most 1024,
the returned exponent is `q/(q-1) ≤ 0` (zero exactly when `q = 0`) and the
weights are `(q, 1-q)`. -/
lemma pow_neg_sound {p : ℚ} (hp : p < 0) {pp : ℚ} {w : ℚ × ℚ}
    (h : pow_neg p = some (pp, w)) :
    ∃ q : ℚ, q = limit_denominator (p / (p - 1)) max_denom ∧ 0 ≤ q ∧ q < 1 ∧
      q.den ≤ 1024 ∧ pp = q / (q - 1) ∧ w = (q, 1 - q) ∧ pp ≤ 0 ∧
      (pp = 0 ↔ q = 0) := by
  rw [pow_neg] at h
  set q := limit_denominator (p / (p - 1)) max_denom with hq
  have hpm : p - 1 < 0 := by linarith
  have hx0 : 0 < p / (p - 1) := div_pos_iff.mpr (Or.inr ⟨hp, hpm⟩)
  have hx1 : p / (p - 1) < 1 := by
    have hne : p - 1 ≠ 0 := ne_of_lt hpm
    have e : p / (p - 1) - 1 = 1 / (p - 1) := by
      field_simp
    have : (1 : ℚ) / (p - 1) < 0 := div_neg_of_pos_of_neg one_pos hpm
    linarith [e ▸ this]
  have hb := limit_denominator_bounds (p / (p - 1)) max_denom
    (by norm_num [max_denom]) hx0 hx1
  rw [← hq] at hb
  by_cases h1 : q = 1
  · rw [if_pos h1] at h
    exact absurd h (by simp)
  · rw [if_neg h1] at h
    have hqlt : q < 1 := lt_of_le_of_ne hb.2.1 h1
    have hqm : q - 1 < 0 := by linarith
    have hple : q / (q - 1) ≤ 0 := div_nonpos_iff.mpr (Or.inl ⟨hb.1, le_of_lt hqm⟩)
    have hzero : q / (q - 1) = 0 ↔ q = 0 := by
      rw [div_eq_zero_iff]
      constructor
      · rintro (h | h)
        · exact h
        · exact absurd h (by intro h'; linarith [sub_eq_zero.mp h'])
      · exact Or.inl
    obtain ⟨ha, hb'⟩ := Prod.mk.injEq .. ▸ Option.some.injEq .. ▸ h
    exact ⟨q, rfl, hb.1, hqlt, by simpa [max_denom] using hb.2.2, ha.symm,
      hb'.symm, ha ▸ hple, ha ▸ hzero⟩

/-- Characterization of `pow_mid` on `0 < p < 1`: the approximant `q` of `p`
is in `[0, 1]` with denominator at most 1024 and is returned as the exponent
with weights `(q, 1-q)`. -/
lemma pow_mid_sound {p : ℚ} (h0 : 0 < p) (h1 : p < 1) :
    ∃ q : ℚ, q = limit_denominator p max_denom ∧ 0 ≤ q ∧ q ≤ 1 ∧
      q.den ≤ 1024 ∧ pow_mid p = (q, (q, 1 - q)) := by
  have hb := limit_denominator_bounds p max_denom (by norm_num [max_denom]) h0 h1
  exact ⟨limit_denominator p max_denom, rfl, hb.1, hb.2.1,
    by simpa [max_denom] using hb.2.2, rfl⟩

/-! ### Claims -/

/-- C1: for every sanitized rational exponent `p0 > 1` on which atom
construction succeeds, the stored approximated exponent is at least 1 (with
equality exactly in the collapsed boundary case), and whenever a weight pair
is stored its two entries sum to 1 exactly in rational arithmetic. -/
theorem c1_high_exponent_ge_one_and_weights_sum_one (p0 : ℚ) (hp : 1 < p0)
    (a : PowerAtom) (ha : power_init p0 = some a) :
    1 ≤ a.p ∧ ∀ w1 w2, a.w = some (w1, w2) → w1 + w2 = 1 := by
  rw [power_init, sanitize_scalar, power_step_high hp, Option.map_map] at ha
  obtain ⟨⟨pp, w⟩, hph, hfa⟩ := Option.map_eq_some'.mp ha
  obtain ⟨q, hq, hq0, hq1, hqden, hppq, hwq, hpp1⟩ := pow_high_sound hp hph
  simp only [Function.comp_apply] at hfa
  subst hfa
  by_cases h1 : pp = 1
  · subst h1
    rw [power_collapse_one]
    exact ⟨le_refl 1, by intro w1 w2 hw; simp at hw⟩
  · have h0 : pp ≠ 0 := by
      intro h
      rw [h] at hpp1
      norm_num at hpp1
    rw [power_collapse_of_ne _ h1 h0]
    refine ⟨hpp1, ?_⟩
    intro w1 w2 hw
    rw [hwq] at hw
    simp only [Option.some.injEq, Prod.mk.injEq] at hw
    obtain ⟨e1, e2⟩ := hw
    rw [← e1, ← e2]
    ring

/-- Witness for C1 at `p0 = 2`: construction yields the atom with exponent 2
and weights `(1/2, 1/2)`, whose sum is 1. -/
theorem c1_witness :
    1 ≤ (PowerAtom.mk 2 (some (1/2, 1/2))).p ∧ (1/2 : ℚ) + 1/2 = 1 :=
  ⟨(c1_high_exponent_ge_one_and_weights_sum_one 2 (by norm_num)
      (PowerAtom.mk 2 (some (1/2, 1/2))) (by with_unfolding_all rfl)).1,
    (c1_high_exponent_ge_one_and_weights_sum_one 2 (by norm_num)
      (PowerAtom.mk 2 (some (1/2, 1/2))) (by with_unfolding_all rfl)).2
      (1/2) (1/2) rfl⟩

/-- C3: after construction, an atom whose stored approximated exponent is
exactly 0 or exactly 1 stores no weight pair; in particular no atom with
exponent 1 and a present weight pair is observable. -/
theorem c3_boundary_collapse_clears_weights (p0 : ℚ) (a : PowerAtom)
    (ha : power_init p0 = some a) (hp : a.p = 0 ∨ a.p = 1) : a.w = none := by
  obtain ⟨⟨p, w⟩, hz, hza⟩ := power_init_some ha
  subst hza
  simp only at hp ⊢
  by_cases h1 : p = 1
  · subst h1
    rw [power_collapse_one]
  · by_cases h0 : p = 0
    · subst h0
      rw [power_collapse_zero]
    · rw [power_collapse_of_ne _ h1 h0] at hp ⊢
      simp only at hp
      exact absurd hp (by simp [h0, h1])

/-- Witness for C3 at `p0 = 5001/5000`: the bounded-denominator
approximation of `1/p0` rounds to 1, so the exponent collapses to the
boundary value 1 and the weights are cleared. -/
theorem c3_witness : (PowerAtom.mk 1 none).w = none :=
  c3_boundary_collapse_clears_weights (5001/5000) (PowerAtom.mk 1 none)
    (by with_unfolding_all rfl) (Or.inr rfl)

/-- C4: canonicalization wiring of `graph_implementation`: regime `One`
returns `x` unchanged with no constraint call, regime `Zero` returns the
all-ones constant with no constraint call, and otherwise the epigraph
variable `t` is returned with the geometric-mean constructor called as
`(t, [x, one], w)` for `0 < p < 1`, `(x, [t, one], w)` for `p > 1`, and
`(one, [x, t], w)` for `p < 0`. -/
theorem c4_canonicalization_wiring (p : ℚ) (w : Option (ℚ × ℚ)) :
    (p = 1 → graph_implementation p w = some (Operand.x, none)) ∧
    (p = 0 → graph_implementation p w = some (Operand.one, none)) ∧
    (0 < p → p < 1 → graph_implementation p w =
      some (Operand.t, some ⟨Operand.t, Operand.x, Operand.one, w⟩)) ∧
    (1 < p → graph_implementation p w =
      some (Operand.t, some ⟨Operand.x, Operand.t, Operand.one, w⟩)) ∧
    (p < 0 → graph_implementation p w =
      some (Operand.t, some ⟨Operand.one, Operand.x, Operand.t, w⟩)) := by
  refine ⟨?_, ?_, ?_, ?_, ?_⟩
  · intro h
    subst h
    rw [graph_implementation, if_pos rfl]
  · intro h
    subst h
    rw [graph_implementation, if_neg (by norm_num), if_pos rfl]
  · intro h0 h1
    rw [graph_implementation, if_neg (by linarith), if_neg (by linarith),
      if_pos ⟨h0, h1⟩]
  · intro h
    rw [graph_implementation, if_neg (by linarith), if_neg (by linarith),
      if_neg (by rintro ⟨_, h'⟩; linarith), if_pos h]
  · intro h
    rw [graph_implementation, if_neg (by linarith), if_neg (by linarith),
      if_neg (by rintro ⟨h', _⟩; linarith), if_neg (by linarith), if_pos h]

/-- Witness for C4 at `p = -1`: the constructor is called as
`(one, [x, t], w)` and `t` is returned. -/
theorem c4_witness :
    graph_implementation (-1) (some (1/2, 1/2)) =
      some (Operand.t, some ⟨Operand.one, Operand.x, Operand.t,
        some (1/2, 1/2)⟩) :=
  (c4_canonicalization_wiring (-1) (some (1/2, 1/2))).2.2.2.2 (by norm_num)

/-- C5: curvature is a pure function of the approximated exponent:
`p = 0` constant, `p = 1` affine, `p < 0` or `p > 1` convex, and
`0 < p < 1` concave. -/
theorem c5_curvature_from_exponent (p : ℚ) :
    (p = 0 → func_curvature p = some Curvature.constant) ∧
    (p = 1 → func_curvature p = some Curvature.affine) ∧
    (p < 0 ∨ 1 < p → func_curvature p = some Curvature.convex) ∧
    (0 < p → p < 1 → func_curvature p = some Curvature.concave) := by
  refine ⟨?_, ?_, ?_, ?_⟩
  · intro h
    subst h
    rw [func_curvature, if_pos rfl]
  · intro h
    subst h
    rw [func_curvature, if_neg (by norm_num), if_pos rfl]
  · intro h
    have h0 : p ≠ 0 := by rcases h with h | h <;> intro h' <;> rw [h'] at h <;>
      norm_num at h
    have h1 : p ≠ 1 := by rcases h with h | h <;> intro h' <;> rw [h'] at h <;>
      norm_num at h
    rw [func_curvature, if_neg h0, if_neg h1, if_pos h]
  · intro h0 h1
    rw [func_curvature, if_neg (by linarith), if_neg (by linarith),
      if_neg (by rintro (h | h) <;> linarith), if_pos ⟨h0, h1⟩]

/-- Witness for C5 at `p = 1/2`: the curvature is concave. -/
theorem c5_witness : func_curvature (1/2) = some Curvature.concave :=
  (c5_curvature_from_exponent (1/2)).2.2.2 (by norm_num) (by norm_num)

/-- C6: monotonicity is derived from the approximated exponent: `p = 0`
non-monotonic, `p = 1` increasing, `p < 0` decreasing, `0 < p < 1`
increasing, and `p > 1` increasing except when `p` is a positive integer
power of two, in which case it is signed; above 1 the detector `is_power2`
accepts exactly the powers of two, and in particular exponent 2 reports
signed while exponent 3 reports increasing (4 and 8 report signed). -/
theorem c6_monotonicity_from_exponent (p : ℚ) :
    (p = 0 → monotonicity p = some Monotonicity.nonmonotonic) ∧
    (p = 1 → monotonicity p = some Monotonicity.increasing) ∧
    (p < 0 → monotonicity p = some Monotonicity.decreasing) ∧
    (0 < p → p < 1 → monotonicity p = some Monotonicity.increasing) ∧
    (1 < p → monotonicity p =
      some (if is_power2 p then Monotonicity.signed
        else Monotonicity.increasing)) ∧
    (1 < p → (is_power2 p = true ↔ ∃ k : ℕ, p = (2 : ℚ) ^ k)) ∧
    monotonicity 2 = some Monotonicity.signed ∧
    monotonicity 3 = some Monotonicity.increasing ∧
    monotonicity 4 = some Monotonicity.signed ∧
    monotonicity 8 = some Monotonicity.signed := by
  have hpow : ∀ k : ℕ, 1 ≤ k → is_power2 ((2 : ℚ) ^ k) = true := by
    intro k hk
    have hcast : ((2 : ℚ) ^ k) = (((2 ^ k : ℤ) : ℚ)) := by push_cast; ring
    rw [is_power2, hcast, Rat.den_intCast, Rat.num_intCast]
    have h2 : ((2 : ℤ) ^ k).toNat = 2 ^ k := by
      have : ((2 : ℤ) ^ k) = ((2 ^ k : ℕ) : ℤ) := by push_cast; ring
      rw [this, Int.toNat_natCast]
    rw [h2]
    have h3 : (2 ^ k : ℕ) &&& (2 ^ k - 1) = 0 := by
      rw [Nat.and_pow_two_sub_one_eq_mod, Nat.mod_self]
    have h4 : (2 ^ k : ℕ) ≠ 0 := by positivity
    simp [h3, h4]
  refine ⟨?_, ?_, ?_, ?_, ?_, ?_, by decide, by decide, by decide, by decide⟩
  · intro h
    subst h
    rw [monotonicity, if_pos rfl]
  · intro h
    subst h
    rw [monotonicity, if_neg (by norm_num), if_pos rfl]
  · intro h
    rw [monotonicity, if_neg (by linarith), if_neg (by linarith), if_pos h]
  · intro h0 h1
    rw [monotonicity, if_neg (by linarith), if_neg (by linarith),
      if_neg (by linarith), if_pos ⟨h0, h1⟩]
  · intro h
    rw [monotonicity, if_neg (by linarith), if_neg (by linarith),
      if_neg (by linarith), if_neg (by rintro ⟨_, h'⟩; linarith), if_pos h]
  · intro hp1
    constructor
    · intro h
      rw [is_power2] at h
      simp only [Bool.and_eq_true, beq_iff_eq, bne_iff_ne, ne_eq] at h
      obtain ⟨⟨hden, hne⟩, hland⟩ := h
      obtain ⟨k, hk⟩ := (land_pred_eq_zero_iff_pow2 p.num.toNat hne).mp hland
      refine ⟨k, ?_⟩
      have hnn : 0 ≤ p.num := Rat.num_nonneg.mpr (by linarith)
      have hnum : p.num = (2 : ℤ) ^ k := by
        rw [← Int.toNat_of_nonneg hnn, hk]
        push_cast
        ring
      have hp : p = ((p.num : ℤ) : ℚ) := (Rat.coe_int_num_of_den_eq_one hden).symm
      rw [hp, hnum]
      push_cast
      ring
    · rintro ⟨k, rfl⟩
      rcases Nat.eq_zero_or_pos k with rfl | hk1
      · norm_num at hp1
      · exact hpow k hk1

/-- Witness for C6 at `p = 3/2`: a non-integer exponent above 1 reports
plain increasing monotonicity. -/
theorem c6_witness :
    monotonicity (3/2) =
      some (if is_power2 (3/2) then Monotonicity.signed
        else Monotonicity.increasing) :=
  (c6_monotonicity_from_exponent (3/2)).2.2.2.2.1 (by norm_num)

/-! ### Denominator bookkeeping for C7 -/

/-- Variant of `den_div_int_le` for a nonzero (possibly negative) integer
denominator. -/
lemma den_div_int_le_natAbs (a b : ℤ) (hb : b ≠ 0) :
    (((a : ℚ) / (b : ℚ)).den : ℤ) ≤ (b.natAbs : ℤ) := by
  have h : ((Rat.divInt a b).den : ℤ) ∣ b := Rat.den_dvd a b
  rw [Rat.divInt_eq_div] at h
  exact Int.le_of_dvd (by positivity) (Int.dvd_natAbs.mpr h)

/-- The denominator of `1 - q` divides (hence does not exceed) that of `q`. -/
lemma den_one_sub_le (q : ℚ) : (1 - q).den ≤ q.den := by
  have h : ((1 : ℚ) + (-q)).den ∣ (1 : ℚ).den * (-q).den := Rat.add_den_dvd 1 (-q)
  have e : (1 : ℚ) + (-q) = 1 - q := by ring
  rw [e, Rat.den_neg_eq_den, (by rfl : (1 : ℚ).den = 1), one_mul] at h
  exact Nat.le_of_dvd q.den_pos h

/-- A rational at most 1 has numerator at most its denominator. -/
lemma num_le_den_of_le_one {q : ℚ} (h1 : q ≤ 1) : q.num ≤ (q.den : ℤ) := by
  rcases eq_or_lt_of_le h1 with h | h
  · rw [h]
    norm_num
  · exact le_of_lt (Rat.lt_one_iff_num_lt_denom.mp h)

/-- For `0 < q ≤ 1`, the denominator of `q⁻¹` (namely the numerator of `q`)
does not exceed the denominator of `q`. -/
lemma den_inv_le {q : ℚ} (h0 : 0 < q) (h1 : q ≤ 1) : (q⁻¹).den ≤ q.den := by
  have hnum : 0 < q.num := Rat.num_pos.mpr h0
  have hd : ((q.den : ℚ)) ≠ 0 := by
    have := q.den_pos
    positivity
  have e : q⁻¹ = ((q.den : ℤ) : ℚ) / ((q.num : ℤ) : ℚ) := by
    conv_lhs => rw [← Rat.num_div_den q]
    rw [inv_div]
    push_cast
    ring
  have h2 : ((q⁻¹).den : ℤ) ≤ q.num := by
    rw [e]
    exact den_div_int_le (q.den : ℤ) q.num hnum
  have h3 : ((q⁻¹).den : ℤ) ≤ (q.den : ℤ) := le_trans h2 (num_le_den_of_le_one h1)
  exact_mod_cast h3

/-- For `0 ≤ q < 1`, the denominator of `q/(q-1)` does not exceed the
denominator of `q`: writing `q = A/B` in lowest terms, `q/(q-1) = A/(A-B)`
and `|A-B| = B - A ≤ B`. -/
lemma den_neg_exponent_le {q : ℚ} (h0 : 0 ≤ q) (h1 : q < 1) :
    (q / (q - 1)).den ≤ q.den := by
  have hA : 0 ≤ q.num := Rat.num_nonneg.mpr h0
  have hAB : q.num < (q.den : ℤ) := Rat.lt_one_iff_num_lt_denom.mp h1
  have hB : ((q.den : ℚ)) ≠ 0 := by
    have := q.den_pos
    positivity
  have hqB : (q.num : ℚ) = q * (q.den : ℚ) := (div_eq_iff hB).mp (Rat.num_div_den q)
  have hne1 : q - 1 ≠ 0 := by
    intro h
    rw [sub_eq_zero] at h
    exact absurd h (ne_of_lt h1)
  have hABne : ((q.num - (q.den : ℤ) : ℤ) : ℚ) ≠ 0 := by
    push_cast
    intro h
    have : (q.num : ℚ) = (q.den : ℚ) := by linarith [sub_eq_zero.mp h]
    have : q.num = (q.den : ℤ) := by exact_mod_cast this
    omega
  have e : q / (q - 1) = ((q.num : ℤ) : ℚ) / ((q.num - (q.den : ℤ) : ℤ) : ℚ) := by
    rw [div_eq_div_iff hne1 hABne]
    push_cast
    rw [hqB]
    ring
  have h2 : ((q / (q - 1)).den : ℤ) ≤ ((q.num - (q.den : ℤ)).natAbs : ℤ) := by
    rw [e]
    exact den_div_int_le_natAbs q.num (q.num - (q.den : ℤ)) (by exact_mod_cast hABne)
  have h3 : ((q.num - (q.den : ℤ)).natAbs : ℤ) ≤ (q.den : ℤ) := by
    omega
  have h4 : ((q / (q - 1)).den : ℤ) ≤ (q.den : ℤ) := le_trans h2 h3
  exact_mod_cast h4

/-- C7: for every constructed atom (default policy `max_denom = 1024`, all
regimes), the denominator of the stored approximated exponent and of each of
the two stored weights, in lowest terms, is at most 1024. -/
theorem c7_denominator_bound (p0 : ℚ) (a : PowerAtom)
    (ha : power_init p0 = some a) :
    a.p.den ≤ 1024 ∧
      ∀ w1 w2, a.w = some (w1, w2) → w1.den ≤ 1024 ∧ w2.den ≤ 1024 := by
  rcases lt_trichotomy p0 0 with hneg | rfl | hpos
  · -- p0 < 0: pow_neg
    rw [power_init, sanitize_scalar, power_step_neg hneg, Option.map_map] at ha
    obtain ⟨⟨pp, w⟩, hph, hfa⟩ := Option.map_eq_some'.mp ha
    obtain ⟨q, hq, hq0, hq1, hqden, hppq, hwq, hple, hzero⟩ := pow_neg_sound hneg hph
    simp only [Function.comp_apply] at hfa
    subst hfa
    have hne1 : pp ≠ 1 := by
      intro h
      rw [h] at hple
      norm_num at hple
    by_cases h0 : pp = 0
    · rw [h0, power_collapse_zero]
      exact ⟨by norm_num, by intro w1 w2 hw; simp at hw⟩
    · rw [power_collapse_of_ne _ hne1 h0]
      constructor
      · show pp.den ≤ 1024
        rw [hppq]
        exact le_trans (den_neg_exponent_le hq0 hq1) hqden
      · intro w1 w2 hw
        rw [hwq] at hw
        simp only [Option.some.injEq, Prod.mk.injEq] at hw
        obtain ⟨e1, e2⟩ := hw
        rw [← e1, ← e2]
        exact ⟨hqden, le_trans (den_one_sub_le q) hqden⟩
  · -- p0 = 0
    rw [power_init, sanitize_scalar, power_step_zero, Option.map_some',
      power_collapse_zero] at ha
    obtain rfl : a = ⟨0, none⟩ := by
      simpa [eq_comm] using ha
    exact ⟨by norm_num, by intro w1 w2 hw; simp at hw⟩
  · rcases lt_trichotomy p0 1 with hlt | rfl | hgt
    · -- 0 < p0 < 1: pow_mid
      rw [power_init, sanitize_scalar, power_step_mid hpos hlt,
        Option.map_some'] at ha
      obtain ⟨q, hq, hq0, hq1, hqden, hmid⟩ := pow_mid_sound hpos hlt
      rw [hmid] at ha
      obtain rfl : a = ⟨(power_collapse (q, some (q, 1 - q))).1,
          (power_collapse (q, some (q, 1 - q))).2⟩ := by
        simpa [eq_comm] using ha
      by_cases h1 : q = 1
      · rw [h1, power_collapse_one]
        exact ⟨by norm_num, by intro w1 w2 hw; simp at hw⟩
      · by_cases h0 : q = 0
        · rw [h0, power_collapse_zero]
          exact ⟨by norm_num, by intro w1 w2 hw; simp at hw⟩
        · rw [power_collapse_of_ne _ h1 h0]
          refine ⟨hqden, ?_⟩
          intro w1 w2 hw
          simp only [Option.some.injEq, Prod.mk.injEq] at hw
          obtain ⟨e1, e2⟩ := hw
          rw [← e1, ← e2]
          exact ⟨hqden, le_trans (den_one_sub_le q) hqden⟩
    · -- p0 = 1
      rw [power_init, sanitize_scalar, power_step_one, Option.map_some',
        power_collapse_one] at ha
      obtain rfl : a = ⟨1, none⟩ := by
        simpa [eq_comm] using ha
      exact ⟨by norm_num, by intro w1 w2 hw; simp at hw⟩
    · -- p0 > 1: pow_high
      rw [power_init, sanitize_scalar, power_step_high hgt, Option.map_map] at ha
      obtain ⟨⟨pp, w⟩, hph, hfa⟩ := Option.map_eq_some'.mp ha
      obtain ⟨q, hq, hq0, hq1, hqden, hppq, hwq, hpp1⟩ := pow_high_sound hgt hph
      simp only [Function.comp_apply] at hfa
      subst hfa
      have h0 : pp ≠ 0 := by
        intro h
        rw [h] at hpp1
        norm_num at hpp1
      by_cases h1 : pp = 1
      · rw [h1, power_collapse_one]
        exact ⟨by norm_num, by intro w1 w2 hw; simp at hw⟩
      · rw [power_collapse_of_ne _ h1 h0]
        constructor
        · show pp.den ≤ 1024
          rw [hppq]
          exact le_trans (den_inv_le hq0 hq1) hqden
        · intro w1 w2 hw
          rw [hwq] at hw
          simp only [Option.some.injEq, Prod.mk.injEq] at hw
          obtain ⟨e1, e2⟩ := hw
          rw [← e1, ← e2]
          exact ⟨hqden, le_trans (den_one_sub_le q) hqden⟩

/-- Witness for C7 at `p0 = 1/3`: exponent `1/3` and weights `(1/3, 2/3)`
all have denominator at most 1024. -/
theorem c7_witness :
    (PowerAtom.mk (1/3) (some (1/3, 2/3))).p.den ≤ 1024 ∧
      ((1 : ℚ)/3).den ≤ 1024 ∧ ((2 : ℚ)/3).den ≤ 1024 :=
  ⟨(c7_denominator_bound (1/3) (PowerAtom.mk (1/3) (some (1/3, 2/3)))
      (by with_unfolding_all rfl)).1,
    (c7_denominator_bound (1/3) (PowerAtom.mk (1/3) (some (1/3, 2/3)))
      (by with_unfolding_all rfl)).2 (1/3) (2/3) rfl⟩

/-- C2: for every `p0 < 0` on which construction succeeds, the returned
exponent is `q/(q-1)` for `q` the bounded-denominator approximation of
`p0/(p0-1)`, with weights `(q, 1-q)`, and it is negative — except in the
boundary collapse to the `Zero` regime (`q = 0`), where the exponent is 0
and the weights are cleared; a collapse to the `One` regime never occurs. -/
theorem c2_negative_regime (p0 : ℚ) (hp : p0 < 0) (a : PowerAtom)
    (ha : power_init p0 = some a) :
    (a.p = limit_denominator (p0 / (p0 - 1)) max_denom /
        (limit_denominator (p0 / (p0 - 1)) max_denom - 1) ∧
      a.w = some (limit_denominator (p0 / (p0 - 1)) max_denom,
        1 - limit_denominator (p0 / (p0 - 1)) max_denom) ∧
      a.p < 0) ∨
    (a.p = 0 ∧ a.w = none) := by
  rw [power_init, sanitize_scalar, power_step_neg hp, Option.map_map] at ha
  obtain ⟨⟨pp, w⟩, hph, hfa⟩ := Option.map_eq_some'.mp ha
  obtain ⟨q, hq, hq0, hq1, hqden, hppq, hwq, hple, hzero⟩ := pow_neg_sound hp hph
  simp only [Function.comp_apply] at hfa
  subst hfa
  have hne1 : pp ≠ 1 := by
    intro h
    rw [h] at hple
    norm_num at hple
  by_cases h0 : pp = 0
  · rw [h0, power_collapse_zero]
    exact Or.inr ⟨rfl, rfl⟩
  · rw [power_collapse_of_ne _ hne1 h0]
    refine Or.inl ⟨?_, ?_, ?_⟩
    · show pp = _
      rw [hppq, hq]
    · show some w = _
      rw [hwq, hq]
    · exact lt_of_le_of_ne hple h0

/-- Witness for C2 at `p0 = -1`: the approximation of `(-1)/(-2)` is `1/2`,
the exponent is `-1` and the weights are `(1/2, 1/2)`. -/
theorem c2_witness :
    ((PowerAtom.mk (-1) (some (1/2, 1/2))).p =
        limit_denominator ((-1 : ℚ) / (-1 - 1)) max_denom /
          (limit_denominator ((-1 : ℚ) / (-1 - 1)) max_denom - 1) ∧
      (PowerAtom.mk (-1) (some (1/2, 1/2))).w =
        some (limit_denominator ((-1 : ℚ) / (-1 - 1)) max_denom,
          1 - limit_denominator ((-1 : ℚ) / (-1 - 1)) max_denom) ∧
      (PowerAtom.mk (-1) (some (1/2, 1/2))).p < 0) ∨
    ((PowerAtom.mk (-1) (some (1/2, 1/2))).p = 0 ∧
      (PowerAtom.mk (-1) (some (1/2, 1/2))).w = none) :=
  c2_negative_regime (-1) (by norm_num) _ (by with_unfolding_all rfl)

/-- C10: for `p0 = 5000` the bounded-denominator approximation of `1/p0`
is exactly 0 and `pow_high` divides by it, and for `p0 = -5000` the
approximation of `p0/(p0-1)` is exactly 1 and `pow_neg` computes `q/(q-1)`
with `q = 1`; in both cases construction raises an uncaught
`ZeroDivisionError` (embedded as `none`) instead of producing a
descriptor. -/
theorem c10_unguarded_zero_division :
    limit_denominator ((5000 : ℚ))⁻¹ max_denom = 0 ∧
    pow_high 5000 = none ∧
    power_init 5000 = none ∧
    limit_denominator ((-5000 : ℚ) / (-5000 - 1)) max_denom = 1 ∧
    pow_neg (-5000) = none ∧
    power_init (-5000) = none := by
  refine ⟨?_, ?_, ?_, ?_, ?_, ?_⟩ <;> with_unfolding_all rfl

/-! ### Fixed points of the constructor, for C8 -/

lemma power_init_zero : power_init 0 = some ⟨0, none⟩ := by
  rw [power_init, sanitize_scalar, power_step_zero, Option.map_some',
    power_collapse_zero]

lemma power_init_one : power_init 1 = some ⟨1, none⟩ := by
  rw [power_init, sanitize_scalar, power_step_one, Option.map_some',
    power_collapse_one]

/-- Re-feeding an exponent produced by `pow_high` (in its non-collapsed
form `q⁻¹` with `0 < q < 1` and bounded denominator) reproduces the same
exponent and weights: the approximation is already a fixed point of
`limit_denominator`. -/
lemma power_init_high_fixed {q : ℚ} (h0 : 0 < q) (h1 : q < 1)
    (hden : q.den ≤ 1024) :
    power_init q⁻¹ = some ⟨q⁻¹, some (q, 1 - q)⟩ := by
  have hinv : 1 < q⁻¹ := one_lt_inv_iff₀.mpr ⟨h0, h1⟩
  rw [power_init, sanitize_scalar, power_step_high hinv]
  have hld : limit_denominator (q⁻¹)⁻¹ max_denom = q := by
    rw [inv_inv]
    exact limit_denominator_of_den_le (by simpa [max_denom] using hden)
  rw [pow_high, hld, if_neg (ne_of_gt h0), Option.map_some', Option.map_some',
    power_collapse_of_ne _ (by linarith) (by positivity)]

/-- Re-feeding an exponent produced by `pow_mid` (non-collapsed form `q`
with `0 < q < 1` and bounded denominator) reproduces the same exponent and
weights. -/
lemma power_init_mid_fixed {q : ℚ} (h0 : 0 < q) (h1 : q < 1)
    (hden : q.den ≤ 1024) :
    power_init q = some ⟨q, some (q, 1 - q)⟩ := by
  rw [power_init, sanitize_scalar, power_step_mid h0 h1]
  have hld : limit_denominator q max_denom = q :=
    limit_denominator_of_den_le (by simpa [max_denom] using hden)
  rw [pow_mid, hld, Option.map_some',
    power_collapse_of_ne _ (by linarith) (by positivity)]

/-- Re-feeding an exponent produced by `pow_neg` (non-collapsed form
`q/(q-1)` with `0 < q < 1` and bounded denominator) reproduces the same
exponent and weights: `p/(p-1)` maps `q/(q-1)` back to `q`, which the
bounded-denominator approximation leaves unchanged. -/
lemma power_init_neg_fixed {q : ℚ} (h0 : 0 < q) (h1 : q < 1)
    (hden : q.den ≤ 1024) :
    power_init (q / (q - 1)) = some ⟨q / (q - 1), some (q, 1 - q)⟩ := by
  have hqm : q - 1 < 0 := by linarith
  have hqmne : q - 1 ≠ 0 := ne_of_lt hqm
  have hneg : q / (q - 1) < 0 := div_neg_of_pos_of_neg h0 hqm
  rw [power_init, sanitize_scalar, power_step_neg hneg]
  have hback : q / (q - 1) / (q / (q - 1) - 1) = q := by
    have hd : q / (q - 1) - 1 = 1 / (q - 1) := by
      field_simp
    rw [hd]
    field_simp
  have hld : limit_denominator (q / (q - 1) / (q / (q - 1) - 1)) max_denom = q := by
    rw [hback]
    exact limit_denominator_of_den_le (by simpa [max_denom] using hden)
  rw [pow_neg, hld, if_neg (ne_of_lt h1), Option.map_some', Option.map_some',
    power_collapse_of_ne _ (by linarith) (ne_of_lt hneg)]

/-- C8: normalization is idempotent: feeding the stored approximated
exponent of any successfully constructed atom back through the sanitizer and
the regime classifier/approximator reproduces the very same atom — in
particular the same regime and the same approximated exponent. -/
theorem c8_normalization_idempotent (p0 : ℚ) (a : PowerAtom)
    (ha : power_init p0 = some a) : power_init a.p = some a := by
  rcases lt_trichotomy p0 0 with hneg | rfl | hpos
  · -- p0 < 0: pow_neg
    rw [power_init, sanitize_scalar, power_step_neg hneg, Option.map_map] at ha
    obtain ⟨⟨pp, w⟩, hph, hfa⟩ := Option.map_eq_some'.mp ha
    obtain ⟨q, hq, hq0, hq1, hqden, hppq, hwq, hple, hzero⟩ := pow_neg_sound hneg hph
    simp only [Function.comp_apply] at hfa
    subst hfa
    have hne1 : pp ≠ 1 := by
      intro h
      rw [h] at hple
      norm_num at hple
    by_cases h0 : pp = 0
    · rw [h0, power_collapse_zero]
      exact power_init_zero
    · rw [power_collapse_of_ne _ hne1 h0]
      have hq0' : 0 < q := by
        rcases eq_or_lt_of_le hq0 with h | h
        · exact absurd (hzero.mpr h.symm) h0
        · exact h
      show power_init pp = some ⟨pp, some w⟩
      rw [hppq, hwq]
      exact power_init_neg_fixed hq0' hq1 hqden
  · -- p0 = 0
    rw [power_init, sanitize_scalar, power_step_zero, Option.map_some',
      power_collapse_zero] at ha
    obtain rfl : a = ⟨0, none⟩ := by
      simpa [eq_comm] using ha
    exact power_init_zero
  · rcases lt_trichotomy p0 1 with hlt | rfl | hgt
    · -- 0 < p0 < 1: pow_mid
      rw [power_init, sanitize_scalar, power_step_mid hpos hlt,
        Option.map_some'] at ha
      obtain ⟨q, hq, hq0, hq1, hqden, hmid⟩ := pow_mid_sound hpos hlt
      rw [hmid] at ha
      obtain rfl : a = ⟨(power_collapse (q, some (q, 1 - q))).1,
          (power_collapse (q, some (q, 1 - q))).2⟩ := by
        simpa [eq_comm] using ha
      by_cases h1 : q = 1
      · rw [h1, power_collapse_one]
        exact power_init_one
      · by_cases h0 : q = 0
        · rw [h0, power_collapse_zero]
          exact power_init_zero
        · rw [power_collapse_of_ne _ h1 h0]
          exact power_init_mid_fixed (lt_of_le_of_ne hq0 (Ne.symm h0))
            (lt_of_le_of_ne hq1 h1) hqden
    · -- p0 = 1
      rw [power_init, sanitize_scalar, power_step_one, Option.map_some',
        power_collapse_one] at ha
      obtain rfl : a = ⟨1, none⟩ := by
        simpa [eq_comm] using ha
      exact power_init_one
    · -- p0 > 1: pow_high
      rw [power_init, sanitize_scalar, power_step_high hgt, Option.map_map] at ha
      obtain ⟨⟨pp, w⟩, hph, hfa⟩ := Option.map_eq_some'.mp ha
      obtain ⟨q, hq, hq0, hq1, hqden, hppq, hwq, hpp1⟩ := pow_high_sound hgt hph
      simp only [Function.comp_apply] at hfa
      subst hfa
      by_cases h1 : pp = 1
      · rw [h1, power_collapse_one]
        exact power_init_one
      · have h0 : pp ≠ 0 := by
          intro h
          rw [h] at hpp1
          norm_num at hpp1
        rw [power_collapse_of_ne _ h1 h0]
        have hq1' : q < 1 := by
          rcases eq_or_lt_of_le hq1 with h | h
          · exact absurd (by rw [hppq, h, inv_one]) h1
          · exact h
        show power_init pp = some ⟨pp, some w⟩
        rw [hppq, hwq]
        exact power_init_high_fixed hq0 hq1' hqden

/-- Witness for C8 at `p0 = 1/2`: the constructed atom `⟨1/2, (1/2, 1/2)⟩`
is reproduced exactly when its exponent is fed back through construction. -/
theorem c8_witness :
    power_init ((PowerAtom.mk (1/2) (some (1/2, 1/2))).p) =
      some (PowerAtom.mk (1/2) (some (1/2, 1/2))) :=
  c8_normalization_idempotent (1/2) _ (by with_unfolding_all rfl)

end CvxpyPower
